import Mathlib

/-!
Shallow embedding of the zipper library (`src/src/lib.rs`): the `Tree`/`Path`/
`Location` navigation engine and the `MemoLocation` memoizing wrapper, together
with theorems settling the specification claims.  `Rc` sharing is flattened to
plain values; the interior-mutable cache is modelled by explicit state passing
(the post-call cache is returned alongside the result).
-/

namespace Zipper

/-- Rust `Tree<T>`: a leaf item or a section of ordered children. -/
inductive Tree (α : Type) : Type where
  | Item : α → Tree α
  | Section : List (Tree α) → Tree α


/-- Rust `Path<T>`: context of a focused subtree — `Top`, or a `Node` with left
siblings (nearest-first), right siblings (nearest-first) and a parent path. -/
inductive Path (α : Type) : Type where
  | Top : Path α
  | Node : List (Tree α) → List (Tree α) → Path α → Path α


/-- Rust `Location<T>`: a focused cursor tree together with its path context. -/
structure Location (α : Type) : Type where
  cursor : Tree α
  path : Path α


/-- Embeds `Location::new`: wraps a tree in a synthetic `Node` path with empty `left`,
`right` containing the same tree, and parent `Top` (lib.rs lines 157-167). -/
def Location.new (t : Tree α) : Location α :=
  ⟨t, .Node [] [t] .Top⟩

/-- Embeds `Location::go_left` (lib.rs lines 175-188). -/
def Location.go_left (l : Location α) : Option (Location α) :=
  match l.path with
  | .Top => none
  | .Node left right p =>
    match left with
    | [] => none
    | first :: rest => some ⟨first, .Node rest (l.cursor :: right) p⟩

/-- Embeds `Location::go_right` (lib.rs lines 196-209). -/
def Location.go_right (l : Location α) : Option (Location α) :=
  match l.path with
  | .Top => none
  | .Node left right p =>
    match right with
    | [] => none
    | first :: rest => some ⟨first, .Node (l.cursor :: left) rest p⟩

/-- Embeds `Location::go_up`: rebuilds the parent focus as
`Section(reverse(left) ++ [cursor] ++ right)` (lib.rs lines 217-235). -/
def Location.go_up (l : Location α) : Option (Location α) :=
  match l.path with
  | .Top => none
  | .Node left right p =>
    some ⟨.Section (left.reverse ++ l.cursor :: right), p⟩

/-- Embeds `Location::go_down` (lib.rs lines 243-256). -/
def Location.go_down (l : Location α) : Option (Location α) :=
  match l.cursor with
  | .Item _ => none
  | .Section trees =>
    match trees with
    | [] => none
    | first :: rest => some ⟨first, .Node [] rest l.path⟩

/-- Embeds `Location::get_nth`: `go_down` for `n = 0`, else `get_nth(n-1)` then
`go_right` (lib.rs lines 270-275). -/
def Location.get_nth (l : Location α) : Nat → Option (Location α)
  | 0 => l.go_down
  | n + 1 => (l.get_nth n).bind Location.go_right

/-- Embeds `Location::change` (lib.rs). -/
def Location.change (l : Location α) (t : Tree α) : Location α :=
  ⟨t, l.path⟩

/-- Embeds `Location::insert_right` (lib.rs). -/
def Location.insert_right (l : Location α) (t : Tree α) : Option (Location α) :=
  match l.path with
  | .Top => none
  | .Node left right p => some ⟨l.cursor, .Node left (t :: right) p⟩

/-- Embeds `Location::insert_left` (lib.rs). -/
def Location.insert_left (l : Location α) (t : Tree α) : Option (Location α) :=
  match l.path with
  | .Top => none
  | .Node left right p => some ⟨l.cursor, .Node (t :: left) right p⟩

/-- Embeds `Location::insert_down`: `None` on an `Item`; on a `Section` the new tree
becomes the cursor one level down with the old children as `right`
(lib.rs lines 355-368). -/
def Location.insert_down (l : Location α) (t : Tree α) : Option (Location α) :=
  match l.cursor with
  | .Item _ => none
  | .Section children => some ⟨t, .Node [] children l.path⟩

/-- Embeds `Location::delete`: three cases in the order of the Rust match
(lib.rs lines 376-415). -/
def Location.delete (l : Location α) : Option (Location α) :=
  match l.path with
  | .Top => none
  | .Node left right p =>
    match left, right with
    | left, first_right :: rest_right =>
      some ⟨first_right, .Node left rest_right p⟩
    | first_left :: rest_left, [] =>
      some ⟨first_left, .Node rest_left [] p⟩
    | [], [] => some ⟨.Section [], p⟩

/-- Models the `Cache<T>` type alias, `Rc<RefCell<HashMap<usize, Rc<Location>>>>`,
as an association list threaded explicitly; insertion prepends, lookup takes the
first matching key, which matches `HashMap` overwrite semantics. -/
def Cache (α : Type) : Type :=
  List (Nat × Location α)

/-- Models `HashMap::get` on the cache. -/
def cacheLookup (c : Cache α) (n : Nat) : Option (Location α) :=
  match c with
  | [] => none
  | (k, loc) :: rest => if k = n then some loc else cacheLookup rest n

/-- Rust `MemoLocation<T>`: a base location plus the shared cache.  The `Rc`
indirection is flattened; sharing of the cache cell is modelled by returning
the post-call cache state from `get_nth`. -/
structure MemoLocation (α : Type) : Type where
  location : Location α
  cache : Cache α

/-- Embeds `Location::with_memo` (lib.rs lines 139-144): fresh empty cache. -/
def Location.with_memo (l : Location α) : MemoLocation α :=
  ⟨l, []⟩

/-- Models the `for _ in 0..n` loop of `MemoLocation::get_nth`: `n` successive
`go_right` steps, each one short-circuiting on failure. -/
def go_right_iter : Nat → Location α → Option (Location α)
  | 0, l => some l
  | n + 1, l => l.go_right.bind (go_right_iter n)

/-- Embeds `MemoLocation::get_nth` (lib.rs lines 420-458).  On a hit the cached
location becomes the returned wrapper's base and the cache is untouched; on a
miss the engine walk (`go_down`, then `n` times `go_right`) runs against the
wrapper's own base, a success is inserted under key `n`, a failure writes
nothing.  The second component is the state of the shared cache cell after the
call. -/
def MemoLocation.get_nth (m : MemoLocation α) (n : Nat) :
    Option (MemoLocation α) × Cache α :=
  match cacheLookup m.cache n with
  | some cached => (some ⟨cached, m.cache⟩, m.cache)
  | none =>
    match (match n with
           | 0 => m.location.go_down
           | k + 1 => m.location.go_down.bind (go_right_iter (k + 1))) with
    | some loc => (some ⟨loc, (n, loc) :: m.cache⟩, (n, loc) :: m.cache)
    | none => (none, m.cache)

/-- Embeds `MemoLocation::into_inner` (lib.rs lines 461-463): unwraps the base
location (`Rc::try_unwrap` falling back to a clone; observably the base). -/
def MemoLocation.into_inner (m : MemoLocation α) : Location α :=
  m.location

/-- A cache is consistent with a base location when every stored entry is the
engine's `get_nth` answer for that key against that base.  A fresh `with_memo`
cache is vacuously consistent; a wrapper returned by a memoized call shares the
cache while replacing the base, which breaks this relation. -/
def CacheConsistent (base : Location α) (c : Cache α) : Prop :=
  ∀ n loc, cacheLookup c n = some loc → base.get_nth n = some loc

end Zipper

namespace Zipper

/-- C1: `go_up` returns `None` exactly on `Top`; otherwise the new cursor is
`Section(reverse(left) ++ [old cursor] ++ right)` and the new path is the
parent. -/
theorem go_up_spec (l : Location α) :
    (l.go_up = none ↔ l.path = Path.Top) ∧
    (∀ left right p, l.path = Path.Node left right p →
      l.go_up = some ⟨Tree.Section (left.reverse ++ l.cursor :: right), p⟩) := by
  constructor
  · cases h : l.path with
    | Top => simp [Location.go_up, h]
    | Node left right p => simp [Location.go_up, h]
  · intro left right p h
    simp [Location.go_up, h]

/-- Witness for C1 at a concrete location with a `Node` path. -/
theorem go_up_spec_witness :
    (Location.mk (Tree.Item 0)
        (Path.Node [Tree.Item 1] [Tree.Item 2] Path.Top)).go_up =
      some ⟨Tree.Section [Tree.Item 1, Tree.Item 0, Tree.Item 2], Path.Top⟩ :=
  (go_up_spec _).2 [Tree.Item 1] [Tree.Item 2] Path.Top rfl

/-- C2: descending into a nonempty `Section` and ascending again restores the
exact cursor and path. -/
theorem go_down_go_up_roundtrip (c : Tree α) (cs : List (Tree α)) (p : Path α) :
    (Location.mk (Tree.Section (c :: cs)) p).go_down.bind Location.go_up =
      some ⟨Tree.Section (c :: cs), p⟩ := by
  simp [Location.go_down, Location.go_up]

/-- C8: `Location::new` stores the tree both as cursor and as the sole right
sibling of a synthetic `Node` over `Top`, so `go_up` on the fresh location
yields `Section([t, t])`. -/
theorem new_go_up_duplicates (t : Tree α) :
    Location.new t = ⟨t, Path.Node [] [t] Path.Top⟩ ∧
    (Location.new t).go_up = some ⟨Tree.Section [t, t], Path.Top⟩ := by
  constructor
  · rfl
  · simp [Location.new, Location.go_up]

/-- C4 counterexample: on an empty `Section` cursor, `insert_down` succeeds in
the code, so it does not return `None` there. -/
theorem insert_down_empty_section_some :
    (Location.mk (Tree.Section ([] : List (Tree Nat))) Path.Top).insert_down
        (Tree.Item 0) ≠ none := by
  simp [Location.insert_down]

/-- C4 (amended): `insert_down` returns `None` exactly when the cursor is an
`Item` leaf; on any `Section`, empty ones included, it succeeds. -/
theorem insert_down_none_iff (l : Location α) (t : Tree α) :
    l.insert_down t = none ↔ ∃ a, l.cursor = Tree.Item a := by
  cases l with
  | mk cur p =>
    cases cur with
    | Item a => simp [Location.insert_down]
    | Section cs => simp [Location.insert_down]

/-- Auxiliary: on an `Item` cursor every `get_nth` fails. -/
theorem get_nth_item (a : α) (p : Path α) :
    ∀ i, (Location.mk (Tree.Item a) p).get_nth i = none
  | 0 => rfl
  | i + 1 => by
    rw [Location.get_nth, get_nth_item a p i]
    rfl

/-- Auxiliary: full characterisation of `get_nth` on a `Section` cursor — the
resulting cursor is the `i`-th child, `left` holds the first `i` children
reversed, `right` the remainder; out-of-range indices fail. -/
theorem get_nth_section_eq (cs : List (Tree α)) (p : Path α) :
    ∀ i, (Location.mk (Tree.Section cs) p).get_nth i =
      if h : i < cs.length then
        some ⟨cs[i], Path.Node (cs.take i).reverse (cs.drop (i + 1)) p⟩
      else none
  | 0 => by
    cases cs with
    | nil => simp [Location.get_nth, Location.go_down]
    | cons c rest => simp [Location.get_nth, Location.go_down]
  | i + 1 => by
    rw [Location.get_nth, get_nth_section_eq cs p i]
    by_cases h : i < cs.length
    · rw [dif_pos h]
      rw [Option.some_bind]
      by_cases h2 : i + 1 < cs.length
      · rw [dif_pos h2]
        have hd : cs.drop (i + 1) = cs[i + 1] :: cs.drop (i + 2) :=
          List.drop_eq_getElem_cons h2
        have ht : cs.take (i + 1) = cs.take i ++ [cs[i]] := by
          rw [List.take_succ]
          simp [List.getElem?_eq_getElem h]
        rw [hd]
        show some (Location.mk cs[i + 1]
            (Path.Node (cs[i] :: (cs.take i).reverse) (cs.drop (i + 2)) p)) = _
        rw [ht, List.reverse_append]
        rfl
      · rw [dif_neg h2]
        have hd : cs.drop (i + 1) = [] := List.drop_eq_nil_of_le (by omega)
        rw [hd]
        rfl
    · rw [dif_neg h]
      have h2 : ¬ i + 1 < cs.length := by omega
      rw [dif_neg h2]
      rfl

/-- C5: on a `Section` with children `cs`, the cursor of `get_nth i` is exactly
the `i`-th child when `i` is in range and the call fails past the last child
(hence also on an empty `Section`); on an `Item` cursor every `get_nth`
fails. -/
theorem get_nth_spec (cs : List (Tree α)) (p : Path α) (i : Nat) :
    ((Location.mk (Tree.Section cs) p).get_nth i).map Location.cursor = cs[i]? ∧
    (∀ a : α, (Location.mk (Tree.Item a) p).get_nth i = none) := by
  constructor
  · rw [get_nth_section_eq cs p i]
    by_cases h : i < cs.length
    · rw [dif_pos h]
      simp [List.getElem?_eq_getElem h]
    · rw [dif_neg h]
      have hn : cs[i]? = none := List.getElem?_eq_none (Nat.le_of_not_lt h)
      simp [hn]
  · intro a
    exact get_nth_item a p i

/-- C6: `go_right` and `go_left` are mutually inverse wherever they succeed,
restoring the exact starting location. -/
theorem lateral_inverse (l l' : Location α) :
    (l.go_right = some l' → l'.go_left = some l) ∧
    (l.go_left = some l' → l'.go_right = some l) := by
  cases l with
  | mk cur path =>
    constructor
    · intro h
      cases path with
      | Top => simp [Location.go_right] at h
      | Node left right p =>
        cases right with
        | nil => simp [Location.go_right] at h
        | cons r rs =>
          simp only [Location.go_right, Option.some.injEq] at h
          subst h
          simp [Location.go_left]
    · intro h
      cases path with
      | Top => simp [Location.go_left] at h
      | Node left right p =>
        cases left with
        | nil => simp [Location.go_left] at h
        | cons a as =>
          simp only [Location.go_left, Option.some.injEq] at h
          subst h
          simp [Location.go_right]

/-- Witness for C6 at a concrete location where `go_right` succeeds. -/
theorem lateral_inverse_witness :
    Location.go_left
        ⟨Tree.Item 1, Path.Node [Tree.Item 0] [] Path.Top⟩ =
      some ⟨Tree.Item 0, Path.Node [] [Tree.Item 1] Path.Top⟩ :=
  (lateral_inverse ⟨Tree.Item 0, Path.Node [] [Tree.Item 1] Path.Top⟩
    ⟨Tree.Item 1, Path.Node [Tree.Item 0] [] Path.Top⟩).1 rfl

/-- C7: `delete` fails exactly on `Top`; with a nonempty `right` the nearest
right sibling becomes the cursor and is dropped from `right` with `left`
unchanged; with `right` empty and `left` nonempty the nearest left sibling
becomes the cursor and is dropped from `left`; with both empty the cursor
becomes the empty `Section` and the location ascends to the parent path. -/
theorem delete_spec (l : Location α) :
    (l.delete = none ↔ l.path = Path.Top) ∧
    (∀ left r rs p, l.path = Path.Node left (r :: rs) p →
      l.delete = some ⟨r, Path.Node left rs p⟩) ∧
    (∀ a as p, l.path = Path.Node (a :: as) [] p →
      l.delete = some ⟨a, Path.Node as [] p⟩) ∧
    (∀ p, l.path = Path.Node [] [] p →
      l.delete = some ⟨Tree.Section [], p⟩) := by
  refine ⟨?_, ?_, ?_, ?_⟩
  · cases h : l.path with
    | Top => simp [Location.delete, h]
    | Node left right p =>
      cases left with
      | nil =>
        cases right with
        | nil => simp [Location.delete, h]
        | cons r rs => simp [Location.delete, h]
      | cons a as =>
        cases right with
        | nil => simp [Location.delete, h]
        | cons r rs => simp [Location.delete, h]
  · intro left r rs p h
    cases left with
    | nil => simp [Location.delete, h]
    | cons a as => simp [Location.delete, h]
  · intro a as p h
    simp [Location.delete, h]
  · intro p h
    simp [Location.delete, h]

/-- Witness for C7 at a concrete location whose siblings are both empty. -/
theorem delete_spec_witness :
    Location.delete ⟨Tree.Item 0, Path.Node [] [] Path.Top⟩ =
      some ⟨Tree.Section [], Path.Top⟩ :=
  (delete_spec ⟨Tree.Item 0, Path.Node [] [] Path.Top⟩).2.2.2 Path.Top rfl

/-- Auxiliary: appending one more `go_right` step to the iterated walk. -/
theorem go_right_iter_bind (n : Nat) (l : Location α) :
    (go_right_iter n l).bind Location.go_right = go_right_iter (n + 1) l := by
  induction n generalizing l with
  | zero =>
    rw [go_right_iter, go_right_iter, Option.some_bind]
    cases l.go_right with
    | none => rfl
    | some x => rfl
  | succ n ih =>
    rw [go_right_iter, go_right_iter, Option.bind_assoc]
    cases hr : l.go_right with
    | none => rfl
    | some x =>
      rw [Option.some_bind, Option.some_bind]
      exact ih x

/-- Auxiliary: the recursive `get_nth` equals the memo wrapper's iterative walk
(`go_down` once, then `n` `go_right` steps). -/
theorem get_nth_eq_iter (l : Location α) :
    ∀ n, l.get_nth n = l.go_down.bind (go_right_iter n)
  | 0 => by
    rw [Location.get_nth]
    cases l.go_down with
    | none => rfl
    | some x => rfl
  | n + 1 => by
    rw [Location.get_nth, get_nth_eq_iter l n, Option.bind_assoc]
    cases l.go_down with
    | none => rfl
    | some x =>
      rw [Option.some_bind, Option.some_bind]
      exact go_right_iter_bind n x

/-- Auxiliary: the engine walk inside `MemoLocation::get_nth`'s miss branch
computes exactly `Location::get_nth` on the wrapper's base. -/
theorem memo_engine_walk_eq (m : MemoLocation α) (n : Nat) :
    (match n with
     | 0 => m.location.go_down
     | k + 1 => m.location.go_down.bind (go_right_iter (k + 1))) =
      m.location.get_nth n := by
  cases n with
  | zero => rw [Location.get_nth]
  | succ k => rw [get_nth_eq_iter m.location (k + 1)]

/-- C3 (amended): whenever the shared cache is consistent with the wrapper's
own base — every cached entry equals the engine's `get_nth` answer on that
base, as holds for a fresh `with_memo` wrapper — the memoized `get_nth`
observably equals the engine's `get_nth` on the base, and the updated cache is
again consistent with that base. -/
theorem memo_get_nth_equiv (m : MemoLocation α) (n : Nat)
    (h : CacheConsistent m.location m.cache) :
    ((m.get_nth n).1).map MemoLocation.into_inner = m.location.get_nth n ∧
    CacheConsistent m.location (m.get_nth n).2 := by
  rw [MemoLocation.get_nth.eq_def]
  cases hc : cacheLookup m.cache n with
  | some cached =>
    constructor
    · rw [h n cached hc]
      rfl
    · exact h
  | none =>
    rw [memo_engine_walk_eq m n]
    cases he : m.location.get_nth n with
    | none => exact ⟨rfl, h⟩
    | some loc =>
      refine ⟨rfl, ?_⟩
      intro k loc' hk
      rw [cacheLookup] at hk
      by_cases hkn : n = k
      · rw [if_pos hkn] at hk
        cases hk
        rw [← hkn]
        exact he
      · rw [if_neg hkn] at hk
        exact h k loc' hk

/-- Witness for C3's amended theorem: a fresh `with_memo` wrapper over a
concrete section, queried at index 0, agrees with the engine. -/
theorem memo_get_nth_equiv_witness :
    ((((Location.mk (Tree.Section [Tree.Item 0]) Path.Top).with_memo.get_nth
          0).1).map MemoLocation.into_inner =
        (Location.mk (Tree.Section [Tree.Item 0]) Path.Top).get_nth 0) :=
  (memo_get_nth_equiv (Location.mk (Tree.Section [Tree.Item 0]) Path.Top).with_memo
    0 (fun n loc hl => by rw [Location.with_memo] at hl; cases hl)).1

/-- C3 counterexample: the wrapper returned by a memoized `get_nth 0` call on
`Section([Section([Item 0])])` shares the now-populated cache but has the inner
section as its base; querying it at index 0 is served from the cache (the entry
computed from the original base) and differs from the engine's `get_nth 0` on
its own base. -/
theorem memo_get_nth_shared_cache_counterexample :
    ((Location.mk (Tree.Section [Tree.Section [Tree.Item 0]])
          Path.Top).with_memo.get_nth 0).1 =
        some ⟨⟨Tree.Section [Tree.Item 0], Path.Node [] [] Path.Top⟩,
          [(0, ⟨Tree.Section [Tree.Item 0], Path.Node [] [] Path.Top⟩)]⟩ ∧
    (((MemoLocation.mk ⟨Tree.Section [Tree.Item 0], Path.Node [] [] Path.Top⟩
          [(0, ⟨Tree.Section [Tree.Item 0], Path.Node [] [] Path.Top⟩)]).get_nth
          0).1).map MemoLocation.into_inner =
        some ⟨Tree.Section [Tree.Item 0], Path.Node [] [] Path.Top⟩ ∧
    (Location.mk (Tree.Section [Tree.Item 0])
          (Path.Node [] [] Path.Top)).get_nth 0 =
        some ⟨Tree.Item 0, Path.Node [] [] (Path.Node [] [] Path.Top)⟩ ∧
    (some (Location.mk (Tree.Section [Tree.Item 0]) (Path.Node [] [] Path.Top)) ≠
      some (Location.mk (Tree.Item 0)
        (Path.Node [] [] (Path.Node [] [] Path.Top)))) := by
  refine ⟨rfl, rfl, rfl, ?_⟩
  intro h
  rw [Option.some.injEq] at h
  cases h

/-- C9: a cache miss whose engine walk fails returns `None` and leaves the
shared cache exactly as it was. -/
theorem memo_get_nth_miss_none (m : MemoLocation α) (n : Nat)
    (hmiss : cacheLookup m.cache n = none)
    (hfail : m.location.get_nth n = none) :
    m.get_nth n = (none, m.cache) := by
  rw [MemoLocation.get_nth.eq_def, hmiss, memo_engine_walk_eq m n, hfail]

/-- Witness for C9: an `Item` base with an empty cache fails at index 0 and the
cache stays empty. -/
theorem memo_get_nth_miss_none_witness :
    (MemoLocation.mk ⟨Tree.Item 0, Path.Top⟩ ([] : Cache Nat)).get_nth 0 =
      (none, ([] : Cache Nat)) :=
  memo_get_nth_miss_none (MemoLocation.mk ⟨Tree.Item 0, Path.Top⟩ []) 0 rfl rfl

/-- C10: wrapping a location with `with_memo` and immediately unwrapping it
with `into_inner` returns the location unchanged. -/
theorem with_memo_into_inner (l : Location α) :
    l.with_memo.into_inner = l :=
  rfl

end Zipper
